import Mathlib

/-!
Verification of the PET (post-encroachment time) computation engine and the
grid-search optimizer of `src/pet_calculator.py` and `src/optimizer.py`.

Trajectory points are Python dicts; we model a point as either a record
(a dict, whose required fields `time`/`x`/`y` and optional fields `speed`/`id`
may each be present or absent) or a non-record value (any non-dict object).
Real numbers are modelled by `ℚ`; the Python float `inf` sentinel returned by
`calculate_pet` is modelled by `PetVal.inf`, and the `-1.0` sentinel for an
undefined traversal time is kept as the literal `-1` the optimizer compares
against.  A Python function that can raise an uncaught exception is modelled
with `Option` (`none` = the call raises).
-/

namespace SumoPet

/-- One trajectory point that is a dict: required keys `time`, `x`, `y` and the
optional keys `speed`, `id` may each be present (`some`) or missing (`none`). -/
structure PtRec where
  time? : Option ℚ
  x? : Option ℚ
  y? : Option ℚ
  speed? : Option ℚ
  id? : Option String
deriving DecidableEq, Repr, Inhabited

/-- A trajectory element: a dict-like record, or any non-dict value. -/
inductive Pt where
  | record (r : PtRec)
  | nonRec
deriving DecidableEq, Repr, Inhabited

/-- Result of `calculate_pet`: a finite PET value or the `float('inf')` sentinel. -/
inductive PetVal where
  | val (q : ℚ)
  | inf
deriving DecidableEq, Repr

/-- `get_coords_time` (pet_calculator.py lines 69-74): `none` models the
raised `TypeError` (non-dict) or `ValueError` (missing `x`, `y` or `time`). -/
def getCoordsTime : Pt → Option ((ℚ × ℚ) × ℚ)
  | .nonRec => none
  | .record r =>
    match r.x?, r.y?, r.time? with
    | some x, some y, some t => some ((x, y), t)
    | _, _, _ => none

/-- A sample on which `get_coords_time` raises. -/
def isMalformed (pt : Pt) : Bool := (getCoordsTime pt).isNone

/-- Whether a point is a dict at all (the `setdefault` loop of `calculate_pet`
only succeeds on dicts). -/
def isRecordPt : Pt → Bool
  | .record _ => true
  | .nonRec => false

/-- The toggle condition of one edge in the manual ray-casting loop
(pet_calculator.py lines 51-57).  When `p1y = p2y` the condition is
unreachable-false, so the division (Python would not evaluate `xinters`
on that path) is harmless. -/
def edgeCross (x y p1x p1y p2x p2y : ℚ) : Bool :=
  decide (min p1y p2y < y) && decide (y ≤ max p1y p2y) && decide (x ≤ max p1x p2x) &&
    (decide (p1x = p2x) || decide (x ≤ (y - p1y) * (p2x - p1x) / (p2y - p1y) + p1x))

/-- `is_inside_polygon` (pet_calculator.py lines 16-59), manual ray-casting
branch: the guard for an empty vertex list, the `< 3` degenerate guard, then
the loop `for i in range(n + 1)` over `polygon_vertices[i % n]` carrying the
previous vertex and the `inside` flag. -/
def is_inside_polygon (point : ℚ × ℚ) (polygon_vertices : List (ℚ × ℚ)) : Bool :=
  if polygon_vertices.isEmpty then false
  else if polygon_vertices.length < 3 then false
  else
    let x := point.1
    let y := point.2
    let n := polygon_vertices.length
    ((List.range (n + 1)).foldl
      (fun (st : Bool × (ℚ × ℚ)) i =>
        let p2 := polygon_vertices.getD (i % n) (0, 0)
        ((if edgeCross x y st.2.1 st.2.2 p2.1 p2.2 then !st.1 else st.1), p2))
      (false, polygon_vertices.getD 0 (0, 0))).1

/-- The Shapely branch of `is_inside_polygon` (pet_calculator.py lines 25-36):
the degenerate guard is in the source; everything after it (polygon
construction, validity fixing, `poly.contains`) is the external library,
abstracted as the strategy `contains`. -/
def is_inside_polygon_shapely (contains : (ℚ × ℚ) → List (ℚ × ℚ) → Bool)
    (point : ℚ × ℚ) (polygon_vertices : List (ℚ × ℚ)) : Bool :=
  if polygon_vertices.isEmpty then false
  else if polygon_vertices.length < 3 then false
  else contains point polygon_vertices

/-- Outcome of the scan loop of `_get_entry_exit_times` (lines 85-102):
`err` models the caught exception that makes the whole extraction return
`(None, None)`; `done` carries `entry_time`, `exit_time`, `currently_inside`
as they stand when the loop ends (by exhaustion or by the `break`). -/
inductive ScanOut where
  | err
  | done (e x : Option ℚ) (ins : Bool)
deriving DecidableEq, Repr

/-- The loop `for i in range(1, len(trajectory))` of `_get_entry_exit_times`
(lines 85-102).  `curr :: rest` are the points still to visit, `prev` the
previous point, `e`/`x`/`ins` the loop state.  On a false→true membership
transition `entry_time` is set to the midpoint (if still unset); on a
true→false transition `exit_time` is set to the midpoint and the loop breaks. -/
def scanLoop (poly : List (ℚ × ℚ)) :
    List Pt → Pt → Option ℚ → Option ℚ → Bool → ScanOut
  | [], _, e, x, ins => .done e x ins
  | curr :: rest, prev, e, x, ins =>
    match getCoordsTime prev, getCoordsTime curr with
    | some (_, tPrev), some (pCurr, tCurr) =>
      if !ins && is_inside_polygon pCurr poly then
        scanLoop poly rest curr
          (if e.isNone then some ((tPrev + tCurr) / 2) else e) x true
      else if ins && !is_inside_polygon pCurr poly then
        .done e (some ((tPrev + tCurr) / 2)) false
      else
        scanLoop poly rest curr e x ins
    | _, _ => .err

/-- The final `exit_time < entry_time` consistency check of
`_get_entry_exit_times` (lines 126-130). -/
def finalCheck (e x : Option ℚ) : Option ℚ × Option ℚ :=
  match e, x with
  | some et, some xt => if xt < et then (none, none) else (some et, some xt)
  | _, _ => (e, x)

/-- Lines 115-130 of `_get_entry_exit_times`: the implied-entry fixup and the
consistency check, given `entry_time = e` and `exit_time = x2` as they stand
after line 113. -/
def postTail2 (trajectory : List Pt) (poly : List (ℚ × ℚ))
    (e x2 : Option ℚ) : Option ℚ × Option ℚ :=
  if x2.isSome && e.isNone then
    match getCoordsTime (trajectory.getD 0 .nonRec) with
    | some (pFirst, tFirst) =>
      if is_inside_polygon pFirst poly then finalCheck (some tFirst) x2
      else (none, none)
    | none => (none, none)
  else finalCheck e x2

/-- Lines 112-113 of `_get_entry_exit_times` (the single-sample rule) feeding
`postTail2`. -/
def postTail (trajectory : List Pt) (poly : List (ℚ × ℚ))
    (e x1 : Option ℚ) : Option ℚ × Option ℚ :=
  postTail2 trajectory poly e (if trajectory.length = 1 && e.isSome then e else x1)

/-- Post-processing after the scan loop of `_get_entry_exit_times`
(lines 104-130): the last-sample exit when still inside at trajectory end
(whose error path returns `(entry_time, None)`, line 110), then `postTail`. -/
def postProcess (trajectory : List Pt) (poly : List (ℚ × ℚ))
    (e x : Option ℚ) (ins : Bool) : Option ℚ × Option ℚ :=
  if ins && e.isSome && x.isNone then
    match getCoordsTime (trajectory.getLast?.getD .nonRec) with
    | some (_, tLast) => postTail trajectory poly e (some tLast)
    | none => (e, none)
  else postTail trajectory poly e x

/-- `_get_entry_exit_times` (pet_calculator.py lines 61-130). -/
def get_entry_exit_times (trajectory : List Pt) (area_polygon : List (ℚ × ℚ)) :
    Option ℚ × Option ℚ :=
  if trajectory.isEmpty || area_polygon.isEmpty || decide (area_polygon.length < 3) then
    (none, none)
  else
    match getCoordsTime (trajectory.getD 0 .nonRec) with
    | none => (none, none)
    | some (p0, t0) =>
      match scanLoop area_polygon (trajectory.drop 1) (trajectory.getD 0 .nonRec)
          (if is_inside_polygon p0 area_polygon then some t0 else none) none
          (is_inside_polygon p0 area_polygon) with
      | .err => (none, none)
      | .done e x ins => postProcess trajectory area_polygon e x ins

/-- The interval-combination tail of `calculate_pet`
(pet_calculator.py lines 145-161): the absent-bound guard, the overlap case,
and the two ordered-gap cases with the `0.0` fallback. -/
def combine_pet : Option ℚ → Option ℚ → Option ℚ → Option ℚ → PetVal
  | some tve, some tvx, some tpe, some tpx =>
    if max tve tpe < min tvx tpx then .val (max tve tpe - min tvx tpx)
    else if tvx ≤ tpe then .val (tpe - tvx)
    else if tpx ≤ tve then .val (tve - tpx)
    else .val 0
  | _, _, _, _ => .inf

/-- The effect of `point.setdefault('speed', 0); point.setdefault('id', 'dummy')`
(pet_calculator.py lines 136-137) on one point (only meaningful for dicts). -/
def setDefaultsPt : Pt → Pt
  | .nonRec => .nonRec
  | .record r =>
    .record { r with speed? := some (r.speed?.getD 0), id? := some (r.id?.getD "dummy") }

/-- The normalization loop of `calculate_pet` (lines 134-137) over one
trajectory: `none` models the uncaught `AttributeError` raised by
`setdefault` on a non-dict element. -/
def normalizeTraj : List Pt → Option (List Pt)
  | [] => some []
  | pt :: rest =>
    match pt with
    | .nonRec => none
    | .record _ => (normalizeTraj rest).map (setDefaultsPt pt :: ·)

/-- `calculate_pet` (pet_calculator.py lines 133-161).  The result carries the
PET value together with the two trajectories as the caller sees them after
the in-place `setdefault` mutation; `none` models an uncaught exception. -/
def calculate_pet (vehicle_trajectory pedestrian_trajectory : List Pt)
    (encroachment_area_polygon : List (ℚ × ℚ)) :
    Option (PetVal × List Pt × List Pt) :=
  match normalizeTraj vehicle_trajectory, normalizeTraj pedestrian_trajectory with
  | some v, some p =>
    let veh := get_entry_exit_times v encroachment_area_polygon
    let ped := get_entry_exit_times p encroachment_area_polygon
    some (combine_pet veh.1 veh.2 ped.1 ped.2, v, p)
  | _, _ => none

/-- The PET value `calculate_pet` returns (dropping the mutated trajectories). -/
def calculate_pet_value (veh ped : List Pt) (poly : List (ℚ × ℚ)) : Option PetVal :=
  (calculate_pet veh ped poly).map (·.1)

/-- A well-formed point `{time, x, y}` with no `speed`/`id` tags. -/
def mkPt (t x y : ℚ) : Pt := .record ⟨some t, some x, some y, none, none⟩

/-- The rectangular encroachment area of the reference scenarios. -/
def squareArea : List (ℚ × ℚ) := [(0, 0), (10, 0), (10, 10), (0, 10)]

/-- Vehicle trajectory of reference scenario 1. -/
def vehTraj1 : List Pt := [mkPt 0 (-5) 5, mkPt 1 5 5, mkPt 2 15 5]

/-- Pedestrian trajectory of reference scenario 1. -/
def pedTraj1 : List Pt := [mkPt 3 5 (-5), mkPt 4 5 5, mkPt 5 5 15]

/-! ### The grid-search optimizer (`src/optimizer.py`) -/

/-- `PET_CONSTRAINT_THRESHOLD` (optimizer.py line 31). -/
def PET_CONSTRAINT_THRESHOLD : ℚ := 2

/-- `PROB_CONSTRAINT_SATISFIED_THRESHOLD` (optimizer.py line 32). -/
def PROB_CONSTRAINT_SATISFIED_THRESHOLD : ℚ := 9 / 10

/-- The Python comparison `pet >= threshold` where `pet` may be `float('inf')`
(optimizer.py line 98): `inf >= threshold` is true. -/
def petGe (p : PetVal) (threshold : ℚ) : Bool :=
  match p with
  | .inf => true
  | .val q => decide (threshold ≤ q)

/-- One run's constraint check (optimizer.py line 98):
`pet1 >= PET_CONSTRAINT_THRESHOLD and pet2 >= PET_CONSTRAINT_THRESHOLD`. -/
def run_constraint_met (pet1 pet2 : PetVal) : Bool :=
  petGe pet1 PET_CONSTRAINT_THRESHOLD && petGe pet2 PET_CONSTRAINT_THRESHOLD

/-- `prob_constraint_satisfied = successful_pet_constraint_runs /
N_SIM_RUNS_PER_AV_SPEED` (optimizer.py lines 96-102) for one candidate's list
of per-run `(pet1, pet2)` pairs. -/
def prob_constraint_satisfied (runs : List (PetVal × PetVal)) : ℚ :=
  ((runs.countP fun r => run_constraint_met r.1 r.2 : ℕ) : ℚ) / (runs.length : ℚ)

/-- One row of `optimization_summary`
(optimizer.py line 108): `(av_speed, prob_constraint_satisfied,
avg_traversal_time)`, where `-1` is the sentinel for "no valid traversal". -/
abbrev Candidate := ℚ × ℚ × ℚ

/-- `x[1] if x[1] != -1.0 else float('inf')`: the traversal-time component of
the eligible sort key (optimizer.py line 131), with `none` standing for the
`float('inf')` it is replaced by when undefined. -/
def ttKey (tt : ℚ) : Option ℚ := if tt = -1 then none else some tt

/-- Strict comparison of two candidates under the eligible sort key
`(avg_tt if avg_tt != -1.0 else inf, -av_speed)` of optimizer.py line 131
(ascending, so `none` = `inf` ranks last and a larger speed ranks first). -/
def optKeyLt (a b : Candidate) : Bool :=
  match ttKey a.2.2, ttKey b.2.2 with
  | some ta, some tb => decide (ta < tb) || (decide (ta = tb) && decide (b.1 < a.1))
  | some _, none => true
  | none, some _ => false
  | none, none => decide (b.1 < a.1)

/-- `-x[2] if x[2] != -1.0 else float('inf')`: the traversal-time component of
the best-compromise `max` key (optimizer.py line 150), with `none` standing
for `float('inf')` (which is greater than every `-tt`). -/
def negTtKey (tt : ℚ) : Option ℚ := if tt = -1 then none else some (-tt)

/-- `>` on the `-tt`-or-`inf` component: `none` (that is, `inf`) is above
every finite value. -/
def infGt : Option ℚ → Option ℚ → Bool
  | none, none => false
  | none, some _ => true
  | some _, none => false
  | some a, some b => decide (b < a)

/-- Strict comparison of two candidates under the best-compromise `max` key
`(prob, -avg_tt if avg_tt != -1.0 else inf)` of optimizer.py line 150. -/
def compKeyGt (a b : Candidate) : Bool :=
  decide (b.2.1 < a.2.1) || (decide (a.2.1 = b.2.1) && infGt (negTtKey a.2.2) (negTtKey b.2.2))

/-- The element an iterated strict comparison selects: the first element of
the list that `better` ranks strictly above every other (Python's
`sorted(...)[0]` for a stable sort, and `max(..., key=...)`, both keep the
first element among key ties). -/
def foldSelect (better : Candidate → Candidate → Bool) : List Candidate → Option Candidate
  | [] => none
  | h :: t => some (t.foldl (fun best e => if better e best then e else best) h)

/-- `eligible_speeds.sort(...); eligible_speeds[0]` (optimizer.py lines
129-135): the first element of the stable ascending sort by
`(avg_tt-or-inf, -av_speed)`, i.e. the fold keeping the earlier element on
key ties.  `none` when no speed is eligible. -/
def select_eligible (eligible : List Candidate) : Option Candidate :=
  foldSelect optKeyLt eligible

/-- `max(optimization_summary, key=lambda x: (x[1], -x[2] if x[2] != -1.0
else float('inf')))` (optimizer.py line 150). -/
def best_compromise (summary : List Candidate) : Option Candidate :=
  foldSelect compKeyGt summary

/-- What `run_optimizer` reports after the search (optimizer.py lines
117-153): an optimal speed meeting the probability constraint, or an
explicitly flagged best compromise, or nothing (empty summary). -/
inductive SelResult where
  | optimal (c : Candidate)
  | compromise (c : Candidate)
  | nothing
deriving DecidableEq, Repr

/-- The eligibility filter of optimizer.py lines 124-127. -/
def eligibleOf (summary : List Candidate) : List Candidate :=
  summary.filter fun c => decide (PROB_CONSTRAINT_SATISFIED_THRESHOLD ≤ c.2.1)

/-- The selection stage of `run_optimizer` (optimizer.py lines 117-153):
filter the summary rows meeting the target probability; if any, pick by the
eligible sort; otherwise report the best compromise of the whole summary,
flagged as not meeting the constraint. -/
def select_result (summary : List Candidate) : SelResult :=
  match select_eligible (eligibleOf summary) with
  | some b => .optimal b
  | none =>
    match best_compromise summary with
    | some c => .compromise c
    | none => .nothing

/-! ### Auxiliary definitions used by the theorems -/

/-- Whether every element of a trajectory is a dict-like record (its required
fields may still be missing). -/
def allRecords (l : List Pt) : Bool := l.all isRecordPt

/-- Whether a point lacks the `speed` key or the `id` key, so that the
`setdefault` normalization of `calculate_pet` changes it. -/
def missingSpeedOrId : Pt → Bool
  | .record r => r.speed?.isNone || r.id?.isNone
  | .nonRec => false

/-- Membership of a trajectory point in the polygon, `false` for a malformed
point (only used to state hypotheses about scanned prefixes). -/
def memberOf (pt : Pt) (poly : List (ℚ × ℚ)) : Bool :=
  match getCoordsTime pt with
  | some (p, _) => is_inside_polygon p poly
  | none => false

/-- A malformed sample: a dict missing its required `time` key. -/
def badPoint : Pt := .record ⟨none, some 0, some 0, none, none⟩

/-- A trajectory that enters and leaves the square before its malformed third
sample: the scan breaks at the exit transition and never inspects it. -/
def badTraj : List Pt := [mkPt 0 5 5, mkPt 1 15 5, badPoint]

/-! ### Helper lemmas -/

lemma normalizeTraj_none_iff (l : List Pt) : normalizeTraj l = none ↔ Pt.nonRec ∈ l := by
  induction l with
  | nil => simp [normalizeTraj]
  | cons pt rest ih =>
    cases pt with
    | nonRec => simp [normalizeTraj]
    | record r =>
      simp only [normalizeTraj, List.mem_cons]
      cases h : normalizeTraj rest with
      | none => simp [h, ih.mp h]
      | some l2 =>
        have : ¬ Pt.nonRec ∈ rest := fun hm => by simp [ih.mpr hm] at h
        simp [this]

lemma normalizeTraj_eq_map (l : List Pt) (h : allRecords l = true) :
    normalizeTraj l = some (l.map setDefaultsPt) := by
  induction l with
  | nil => rfl
  | cons pt rest ih =>
    simp only [allRecords, List.all_cons, Bool.and_eq_true] at h
    cases pt with
    | nonRec => simp [isRecordPt] at h
    | record r =>
      rw [normalizeTraj, ih h.2]
      rfl

lemma getCoordsTime_setDefaults (pt : Pt) :
    getCoordsTime (setDefaultsPt pt) = getCoordsTime pt := by
  cases pt with
  | nonRec => rfl
  | record r => rfl

lemma isMalformed_setDefaults (pt : Pt) :
    isMalformed (setDefaultsPt pt) = isMalformed pt := by
  simp [isMalformed, getCoordsTime_setDefaults]

lemma memberOf_setDefaults (pt : Pt) (poly : List (ℚ × ℚ)) :
    memberOf (setDefaultsPt pt) poly = memberOf pt poly := by
  simp [memberOf, getCoordsTime_setDefaults]

lemma setDefaults_ne_of_missing (pt : Pt) (h : missingSpeedOrId pt = true) :
    setDefaultsPt pt ≠ pt := by
  cases pt with
  | nonRec => simp [missingSpeedOrId] at h
  | record r =>
    simp only [missingSpeedOrId, Bool.or_eq_true, Option.isNone_iff_eq_none] at h
    intro hEq
    simp only [setDefaultsPt, Pt.record.injEq] at hEq
    rcases h with h | h
    · have := congrArg PtRec.speed? hEq
      simp [h] at this
    · have := congrArg PtRec.id? hEq
      simp [h] at this

lemma map_ne_self_of_mem {f : Pt → Pt} {l : List Pt} (pt : Pt) (hmem : pt ∈ l)
    (hne : f pt ≠ pt) : l.map f ≠ l := by
  intro hEq
  induction l with
  | nil => simp at hmem
  | cons a t ih =>
    simp only [List.map_cons, List.cons.injEq] at hEq
    rcases List.mem_cons.mp hmem with rfl | hmem2
    · exact hne hEq.1
    · exact ih hmem2 hEq.2

lemma finalCheck_le (e x : Option ℚ) (a b : ℚ) (h : finalCheck e x = (some a, some b)) :
    a ≤ b := by
  cases e with
  | none => cases x <;> simp [finalCheck] at h
  | some et =>
    cases x with
    | none => simp [finalCheck] at h
    | some xt =>
      simp only [finalCheck] at h
      by_cases hlt : xt < et
      · rw [if_pos hlt] at h
        simp at h
      · rw [if_neg hlt] at h
        simp only [Prod.mk.injEq, Option.some_inj] at h
        obtain ⟨rfl, rfl⟩ := h
        exact le_of_not_lt hlt

lemma postTail2_le (traj : List Pt) (poly : List (ℚ × ℚ)) (e x2 : Option ℚ) (a b : ℚ)
    (h : postTail2 traj poly e x2 = (some a, some b)) : a ≤ b := by
  unfold postTail2 at h
  split at h
  · split at h
    · split at h
      · exact finalCheck_le _ _ _ _ h
      · simp at h
    · simp at h
  · exact finalCheck_le _ _ _ _ h

lemma postProcess_le (traj : List Pt) (poly : List (ℚ × ℚ)) (e x : Option ℚ) (ins : Bool)
    (a b : ℚ) (h : postProcess traj poly e x ins = (some a, some b)) : a ≤ b := by
  unfold postProcess postTail at h
  split at h
  · split at h
    · exact postTail2_le _ _ _ _ _ _ h
    · simp at h
  · exact postTail2_le _ _ _ _ _ _ h

lemma get_entry_exit_le (traj : List Pt) (poly : List (ℚ × ℚ)) (a b : ℚ)
    (h : get_entry_exit_times traj poly = (some a, some b)) : a ≤ b := by
  unfold get_entry_exit_times at h
  split at h
  · simp at h
  · split at h
    · simp at h
    · split at h
      · simp at h
      · exact postProcess_le _ _ _ _ _ _ _ h

lemma combine_pet_swap (a b c d : Option ℚ)
    (hab : ∀ x y, a = some x → b = some y → x ≤ y)
    (hcd : ∀ x y, c = some x → d = some y → x ≤ y) :
    combine_pet c d a b = combine_pet a b c d := by
  cases a with
  | none => cases c <;> cases d <;> cases b <;> rfl
  | some ve =>
    cases b with
    | none => cases c <;> cases d <;> rfl
    | some vx =>
      cases c with
      | none => cases d <;> rfl
      | some pe =>
        cases d with
        | none => rfl
        | some px =>
          have hv : ve ≤ vx := hab _ _ rfl rfl
          have hp : pe ≤ px := hcd _ _ rfl rfl
          simp only [combine_pet]
          rw [max_comm pe ve, min_comm px vx]
          split_ifs <;> first | rfl | (congr 1; linarith)

lemma optKeyLt_irrefl (a : Candidate) : optKeyLt a a = false := by
  unfold optKeyLt
  cases h : ttKey a.2.2 <;> simp

lemma optKeyLt_trans (a b c : Candidate) (h1 : optKeyLt a b = true)
    (h2 : optKeyLt b c = true) : optKeyLt a c = true := by
  rcases hta : ttKey a.2.2 with _ | ta <;>
    rcases htb : ttKey b.2.2 with _ | tb <;>
    rcases htc : ttKey c.2.2 with _ | tc <;>
    simp only [optKeyLt, hta, htb, htc, Bool.or_eq_true, Bool.and_eq_true,
      decide_eq_true_eq] at h1 h2 ⊢ <;>
    try trivial
  · exact lt_trans h2 h1
  · rcases h1 with h1 | ⟨h1, h1'⟩ <;> rcases h2 with h2 | ⟨h2, h2'⟩
    · exact Or.inl (lt_trans h1 h2)
    · exact Or.inl (h2 ▸ h1)
    · exact Or.inl (h1 ▸ h2)
    · exact Or.inr ⟨h1.trans h2, lt_trans h2' h1'⟩

lemma optKeyLt_negtrans (a b c : Candidate) (h1 : ¬ optKeyLt a b = true)
    (h2 : ¬ optKeyLt b c = true) : ¬ optKeyLt a c = true := by
  rcases hta : ttKey a.2.2 with _ | ta <;>
    rcases htb : ttKey b.2.2 with _ | tb <;>
    rcases htc : ttKey c.2.2 with _ | tc <;>
    simp only [optKeyLt, hta, htb, htc, Bool.or_eq_true, Bool.and_eq_true,
      decide_eq_true_eq] at h1 h2 ⊢ <;>
    try trivial
  · push_neg at h1 h2 ⊢
    linarith
  · push_neg at h1 h2 ⊢
    refine ⟨by linarith, fun hac => ?_⟩
    have hbc : tb = tc := le_antisymm (hac ▸ h1.1) h2.1
    have hab : ta = tb := le_antisymm (by linarith [h2.1]) h1.1
    exact (h1.2 hab).trans (h2.2 hbc)

lemma foldSelect_min (t : List Candidate) (best : Candidate) :
    (t.foldl (fun acc e => if optKeyLt e acc then e else acc) best = best
      ∨ t.foldl (fun acc e => if optKeyLt e acc then e else acc) best ∈ t)
  ∧ optKeyLt best (t.foldl (fun acc e => if optKeyLt e acc then e else acc) best) = false
  ∧ ∀ e ∈ t, optKeyLt e (t.foldl (fun acc e => if optKeyLt e acc then e else acc) best)
      = false := by
  induction t generalizing best with
  | nil => exact ⟨Or.inl rfl, optKeyLt_irrefl best, by simp⟩
  | cons q t ih =>
    simp only [List.foldl_cons]
    by_cases hq : optKeyLt q best = true
    · rw [if_pos hq]
      obtain ⟨hmem, hbest, hall⟩ := ih q
      refine ⟨?_, ?_, ?_⟩
      · rcases hmem with h | h
        · exact Or.inr (by rw [h]; exact List.mem_cons_self q t)
        · exact Or.inr (List.mem_cons_of_mem q h)
      · rw [Bool.eq_false_iff]
        intro hcon
        have := optKeyLt_trans _ _ _ hq hcon
        rw [hbest] at this
        exact Bool.false_ne_true this
      · intro e he
        rcases List.mem_cons.mp he with rfl | he2
        · exact hbest
        · exact hall e he2
    · rw [if_neg hq]
      obtain ⟨hmem, hbest, hall⟩ := ih best
      refine ⟨?_, ?_, ?_⟩
      · rcases hmem with h | h
        · exact Or.inl h
        · exact Or.inr (List.mem_cons_of_mem q h)
      · exact hbest
      · intro e he
        rcases List.mem_cons.mp he with rfl | he2
        · rw [Bool.eq_false_iff]
          exact optKeyLt_negtrans e best _ hq (by simp [hbest])
        · exact hall e he2

lemma of_optKeyLt_false (e b : Candidate) (h : optKeyLt e b = false) :
    (e.2.2 ≠ -1 → b.2.2 ≠ -1 ∧ b.2.2 ≤ e.2.2) ∧ (e.2.2 = b.2.2 → e.1 ≤ b.1) := by
  have hbool : ¬ optKeyLt e b = true := by simp [h]
  constructor
  · intro he
    have hte : ttKey e.2.2 = some e.2.2 := by simp [ttKey, he]
    rcases htb : ttKey b.2.2 with _ | tb
    · simp only [optKeyLt, hte, htb] at h
      simp at h
    · have hb : b.2.2 ≠ -1 := fun hcon => by simp [ttKey, hcon] at htb
      have htb2 : b.2.2 = tb := by
        simp [ttKey, hb] at htb
        exact htb
      refine ⟨hb, ?_⟩
      simp only [optKeyLt, hte, htb, Bool.or_eq_true, Bool.and_eq_true,
        decide_eq_true_eq] at hbool
      push_neg at hbool
      rw [htb2]
      exact hbool.1
  · intro heq
    by_cases he : e.2.2 = -1
    · have hb : b.2.2 = -1 := heq ▸ he
      have hte : ttKey e.2.2 = none := by simp [ttKey, he]
      have htb : ttKey b.2.2 = none := by simp [ttKey, hb]
      simp only [optKeyLt, hte, htb, decide_eq_true_eq] at hbool
      linarith [not_lt.mp hbool]
    · have hb : b.2.2 ≠ -1 := heq ▸ he
      have hte : ttKey e.2.2 = some e.2.2 := by simp [ttKey, he]
      have htb : ttKey b.2.2 = some b.2.2 := by simp [ttKey, hb]
      simp only [optKeyLt, hte, htb, Bool.or_eq_true, Bool.and_eq_true,
        decide_eq_true_eq] at hbool
      push_neg at hbool
      exact hbool.2 heq

lemma scanLoop_err_of_malformed (poly : List (ℚ × ℚ)) (m : Pt) (post : List Pt)
    (hm : isMalformed m = true) :
    ∀ (pre : List Pt) (prev : Pt) (e x : Option ℚ),
      isMalformed prev = false →
      (∀ pt ∈ pre, isMalformed pt = false) →
      List.Chain' (fun a b => a = true → b = true)
        ((prev :: pre).map (fun pt => memberOf pt poly)) →
      scanLoop poly (pre ++ m :: post) prev e x (memberOf prev poly) = .err := by
  intro pre
  induction pre with
  | nil =>
    intro prev e x hprev _ _
    obtain ⟨cp, hp⟩ := Option.isSome_iff_exists.mp (by
      simpa [isMalformed, Option.isNone_iff_eq_none, ← Option.ne_none_iff_isSome]
        using hprev)
    have hmn : getCoordsTime m = none := by
      simpa [isMalformed, Option.isNone_iff_eq_none] using hm
    simp only [List.nil_append, scanLoop, hp, hmn]
  | cons q rest ih =>
    intro prev e x hprev hpre hchain
    have hq : isMalformed q = false := hpre q (List.mem_cons_self q rest)
    obtain ⟨⟨pPrev, tPrev⟩, hp⟩ := Option.isSome_iff_exists.mp (by
      simpa [isMalformed, Option.isNone_iff_eq_none, ← Option.ne_none_iff_isSome]
        using hprev)
    obtain ⟨⟨pQ, tQ⟩, hpq⟩ := Option.isSome_iff_exists.mp (by
      simpa [isMalformed, Option.isNone_iff_eq_none, ← Option.ne_none_iff_isSome]
        using hq)
    have hmemq : memberOf q poly = is_inside_polygon pQ poly := by
      simp [memberOf, hpq]
    simp only [List.map_cons] at hchain
    rw [List.chain'_cons] at hchain
    have hstep : memberOf prev poly = true → memberOf q poly = true := hchain.1
    have hchain2 : List.Chain' (fun a b => a = true → b = true)
        ((q :: rest).map (fun pt => memberOf pt poly)) := by
      simp only [List.map_cons]
      exact hchain.2
    have hpre2 : ∀ pt ∈ rest, isMalformed pt = false :=
      fun pt hmem => hpre pt (List.mem_cons_of_mem q hmem)
    simp only [List.cons_append, scanLoop, hp, hpq]
    by_cases hins : memberOf prev poly = true
    · have hinq : is_inside_polygon pQ poly = true := hmemq ▸ hstep hins
      rw [hins, hinq]
      simp only [Bool.not_true, Bool.false_and, Bool.and_false, if_false]
      have := ih q e x hq hpre2 hchain2
      rw [hmemq, hinq] at this
      exact this
    · rw [Bool.not_eq_true] at hins
      rw [hins]
      by_cases hinq : is_inside_polygon pQ poly = true
      · rw [hinq]
        simp only [Bool.not_false, Bool.true_and, if_true]
        have := ih q (if e.isNone then some ((tPrev + tQ) / 2) else e) x hq hpre2 hchain2
        rw [hmemq, hinq] at this
        exact this
      · rw [Bool.not_eq_true] at hinq
        rw [hinq]
        simp only [Bool.not_false, Bool.false_and, Bool.and_false, if_false,
          Bool.true_and]
        have := ih q e x hq hpre2 hchain2
        rw [hmemq, hinq] at this
        exact this

lemma extraction_none_of_malformed (poly : List (ℚ × ℚ)) (pre post : List Pt) (m : Pt)
    (hm : isMalformed m = true)
    (hpre : ∀ pt ∈ pre, isMalformed pt = false)
    (hchain : List.Chain' (fun a b => a = true → b = true)
      (pre.map (fun pt => memberOf pt poly))) :
    get_entry_exit_times (pre ++ m :: post) poly = (none, none) := by
  unfold get_entry_exit_times
  by_cases hguard : ((pre ++ m :: post).isEmpty || poly.isEmpty
      || decide (poly.length < 3)) = true
  · rw [if_pos hguard]
  · rw [if_neg hguard]
    cases pre with
    | nil =>
      have hmn : getCoordsTime m = none := by
        simpa [isMalformed, Option.isNone_iff_eq_none] using hm
      simp [hmn]
    | cons p0 pre2 =>
      have hp0 : isMalformed p0 = false := hpre p0 (List.mem_cons_self p0 pre2)
      obtain ⟨⟨pc, t0⟩, hc⟩ := Option.isSome_iff_exists.mp (by
        simpa [isMalformed, Option.isNone_iff_eq_none, ← Option.ne_none_iff_isSome]
          using hp0)
      have hgd : ((p0 :: pre2) ++ m :: post).getD 0 .nonRec = p0 := rfl
      rw [hgd, hc]
      have hmem0 : memberOf p0 poly = is_inside_polygon pc poly := by
        simp [memberOf, hc]
      have hdrop : ((p0 :: pre2) ++ m :: post).drop 1 = pre2 ++ m :: post := rfl
      rw [hdrop]
      have herr := scanLoop_err_of_malformed poly m post hm pre2 p0
        (if is_inside_polygon pc poly then some t0 else none) none hp0
        (fun pt hmem => hpre pt (List.mem_cons_of_mem p0 hmem)) hchain
      rw [hmem0] at herr
      simp only [herr]

/-! ### Claim theorems -/

/-- C1 (code bug): with every candidate below the target probability and a tie
on the (maximal) empirical probability, the best-compromise `max` of
optimizer.py line 150 maps the `-1.0` sentinel to `float('inf')` and therefore
reports the candidate whose traversal-time metric is UNDEFINED, ahead of a
candidate with a defined metric — the claim, the spec and the code comment
("then minimize traversal time", and the eligible branch ranking the sentinel
last) all require the defined-metric candidate.  Concretely: with summary rows
(speed 5, probability 1/2, undefined metric) and (speed 10, probability 1/2,
metric 3), both below the 0.9 target, the code reports speed 5. -/
theorem compromise_prefers_undefined_metric :
    select_result [(5, 1/2, -1), (10, 1/2, 3)] = .compromise (5, 1/2, -1)
  ∧ (1/2 : ℚ) < PROB_CONSTRAINT_SATISFIED_THRESHOLD := by
  constructor
  · norm_num [select_result, select_eligible, best_compromise, eligibleOf, foldSelect,
      optKeyLt, compKeyGt, ttKey, negTtKey, infGt, PROB_CONSTRAINT_SATISFIED_THRESHOLD]
  · norm_num [PROB_CONSTRAINT_SATISFIED_THRESHOLD]

/-- C2 (counterexample): a trajectory whose malformed third sample comes after
the first inside→outside transition does NOT yield `(absent, absent)`: the
scan of `_get_entry_exit_times` breaks at the exit transition (line 102)
before ever inspecting the malformed sample, so the trajectory yields the
interval `(0, 1/2)` and the PET against the scenario-1 pedestrian is the
finite value `3`, not `+infinity` — refuting the claim as stated. -/
theorem malformed_after_exit_ignored :
    isMalformed (badTraj.getD 2 .nonRec) = true
  ∧ get_entry_exit_times badTraj squareArea = (some 0, some (1/2))
  ∧ calculate_pet_value badTraj pedTraj1 squareArea = some (.val 3) := by
  refine ⟨by simp [badTraj, badPoint, isMalformed, getCoordsTime], ?_, ?_⟩ <;>
    norm_num [calculate_pet_value, calculate_pet, normalizeTraj, setDefaultsPt,
      get_entry_exit_times, badTraj, badPoint, pedTraj1, squareArea, mkPt, getCoordsTime,
      scanLoop, is_inside_polygon, edgeCross, postProcess, postTail, postTail2, finalCheck,
      combine_pet, List.range_succ]

/-- C2 (amended): a malformed sample aborts extraction for the whole
trajectory — yielding `(absent, absent)`, and `+infinity` for the PET of any
pair involving the trajectory when all samples of both trajectories are
records — provided the scan actually inspects it: every sample before it is
well-formed and no inside→outside membership transition occurs among them
(otherwise the scan breaks at the first exit and ignores the rest; a
non-record sample makes `calculate_pet` raise instead). -/
theorem malformed_scanned_aborts (poly : List (ℚ × ℚ)) (pre post : List Pt) (m : Pt)
    (hm : isMalformed m = true)
    (hpre : ∀ pt ∈ pre, isMalformed pt = false)
    (hchain : List.Chain' (fun a b => a = true → b = true)
      (pre.map (fun pt => memberOf pt poly))) :
    get_entry_exit_times (pre ++ m :: post) poly = (none, none)
  ∧ (∀ other : List Pt, allRecords (pre ++ m :: post) = true → allRecords other = true →
      calculate_pet_value (pre ++ m :: post) other poly = some .inf
      ∧ calculate_pet_value other (pre ++ m :: post) poly = some .inf) := by
  refine ⟨extraction_none_of_malformed poly pre post m hm hpre hchain, ?_⟩
  intro other hbad hother
  have hmapped : get_entry_exit_times ((pre ++ m :: post).map setDefaultsPt) poly
      = (none, none) := by
    have hsplit : (pre ++ m :: post).map setDefaultsPt
        = pre.map setDefaultsPt ++ setDefaultsPt m :: post.map setDefaultsPt := by
      simp
    rw [hsplit]
    apply extraction_none_of_malformed
    · rw [isMalformed_setDefaults]
      exact hm
    · intro pt hmem
      obtain ⟨q, hq, rfl⟩ := List.mem_map.mp hmem
      rw [isMalformed_setDefaults]
      exact hpre q hq
    · rw [List.map_map]
      have hcomp : ((fun pt => memberOf pt poly) ∘ setDefaultsPt)
          = fun pt => memberOf pt poly := by
        funext pt
        simp [memberOf_setDefaults]
      rw [hcomp]
      exact hchain
  constructor
  · rw [calculate_pet_value, calculate_pet, normalizeTraj_eq_map _ hbad,
      normalizeTraj_eq_map _ hother]
    simp only [hmapped]
    rfl
  · rw [calculate_pet_value, calculate_pet, normalizeTraj_eq_map _ hbad,
      normalizeTraj_eq_map _ hother]
    simp only [hmapped]
    cases hx : get_entry_exit_times (other.map setDefaultsPt) poly with
    | mk a b => cases a <;> cases b <;> rfl

/-- C2 (witness): a trajectory whose single well-formed sample stays outside
the square, followed by the malformed sample, yields `(absent, absent)` and
PET `+infinity` against the scenario-1 pedestrian in both argument orders. -/
theorem malformed_scanned_aborts_witness :
    get_entry_exit_times ([mkPt 0 20 20] ++ badPoint :: []) squareArea = (none, none)
  ∧ calculate_pet_value ([mkPt 0 20 20] ++ badPoint :: []) pedTraj1 squareArea
      = some .inf
  ∧ calculate_pet_value pedTraj1 ([mkPt 0 20 20] ++ badPoint :: []) squareArea
      = some .inf := by
  have h := malformed_scanned_aborts squareArea [mkPt 0 20 20] [] badPoint
    (by simp [badPoint, isMalformed, getCoordsTime])
    (by intro pt hmem
        simp only [List.mem_singleton] at hmem
        simp [hmem, isMalformed, getCoordsTime, mkPt])
    (by simp)
  have h2 := h.2 pedTraj1
    (by simp [allRecords, isRecordPt, mkPt, badPoint])
    (by simp [allRecords, isRecordPt, pedTraj1, mkPt])
  exact ⟨h.1, h2.1, h2.2⟩

/-- C3: for occupancy intervals with all four bounds present and each entry at
or before its exit, the interval combination of `calculate_pet` (lines
145-161, embedded as `combine_pet`) returns the negative value
`latest_entry - earliest_exit` under temporal overlap, the non-negative gap
`later_agent_entry - earlier_agent_exit` when one exit is at or before the
other entry, and `0` when the boundaries coincide in both directions; any
absent bound gives `+infinity`. -/
theorem combine_pet_cases (tve tvx tpe tpx : ℚ) (hv : tve ≤ tvx) (hp : tpe ≤ tpx) :
    (max tve tpe < min tvx tpx →
      combine_pet (some tve) (some tvx) (some tpe) (some tpx)
          = .val (max tve tpe - min tvx tpx) ∧ max tve tpe - min tvx tpx < 0)
  ∧ (¬ max tve tpe < min tvx tpx → tvx ≤ tpe →
      combine_pet (some tve) (some tvx) (some tpe) (some tpx) = .val (tpe - tvx)
        ∧ 0 ≤ tpe - tvx)
  ∧ (¬ max tve tpe < min tvx tpx → tpx ≤ tve →
      combine_pet (some tve) (some tvx) (some tpe) (some tpx) = .val (tve - tpx)
        ∧ 0 ≤ tve - tpx)
  ∧ (tvx = tpe → tpx = tve →
      combine_pet (some tve) (some tvx) (some tpe) (some tpx) = .val 0)
  ∧ (∀ a b c d : Option ℚ, a = none ∨ b = none ∨ c = none ∨ d = none →
      combine_pet a b c d = .inf) := by
  refine ⟨?_, ?_, ?_, ?_, ?_⟩
  · intro h
    exact ⟨by simp only [combine_pet, if_pos h], by linarith⟩
  · intro h hle
    refine ⟨?_, by linarith⟩
    simp only [combine_pet, if_neg h, if_pos hle]
  · intro h hle
    refine ⟨?_, by linarith⟩
    simp only [combine_pet, if_neg h]
    by_cases h2 : tvx ≤ tpe
    · rw [if_pos h2]
      congr 1
      linarith
    · rw [if_neg h2, if_pos hle]
  · intro h1 h2
    have h3 : tpe = tve := by linarith
    have h4 : tvx = tve := by linarith
    have h5 : tpx = tve := by linarith
    have hno : ¬ max tve tpe < min tvx tpx := by
      rw [h3, h4, h5]
      simp
    simp only [combine_pet, if_neg hno, if_pos (le_of_eq h1)]
    congr 1
    linarith
  · intro a b c d h
    cases a <;> cases b <;> cases c <;> cases d <;> simp_all [combine_pet]

/-- C3 (witness): the ordered-gap case at intervals (0,1) and (3,4). -/
theorem combine_pet_cases_witness :
    combine_pet (some (0 : ℚ)) (some 1) (some 3) (some 4) = .val (3 - 1)
  ∧ (0 : ℚ) ≤ 3 - 1 := by
  have h := combine_pet_cases 0 1 3 4 (by norm_num) (by norm_num)
  exact h.2.1 (by norm_num) (by norm_num)

/-- C4: among summary rows whose empirical probability meets the target, the
selection of optimizer.py lines 129-135 reports an eligible row whose
traversal-time metric key is minimal: whenever some eligible row has a
defined metric, the chosen row has a defined metric no larger than it
(rows with the `-1` sentinel rank last), and among rows with the very same
metric value the chosen row has the largest control speed. -/
theorem eligible_selection_rule (summary : List Candidate)
    (h : eligibleOf summary ≠ []) :
    ∃ b, select_result summary = .optimal b
      ∧ b ∈ eligibleOf summary
      ∧ PROB_CONSTRAINT_SATISFIED_THRESHOLD ≤ b.2.1
      ∧ (∀ e ∈ eligibleOf summary, e.2.2 ≠ -1 → b.2.2 ≠ -1 ∧ b.2.2 ≤ e.2.2)
      ∧ (∀ e ∈ eligibleOf summary, e.2.2 = b.2.2 → e.1 ≤ b.1) := by
  obtain ⟨h0, t, hel⟩ : ∃ h0 t, eligibleOf summary = h0 :: t := by
    cases hc : eligibleOf summary with
    | nil => exact absurd hc h
    | cons a l => exact ⟨a, l, rfl⟩
  obtain ⟨hmem, hbest, hall⟩ := foldSelect_min t h0
  have hallc : ∀ e ∈ eligibleOf summary,
      optKeyLt e (t.foldl (fun acc e => if optKeyLt e acc then e else acc) h0)
        = false := by
    rw [hel]
    intro e he
    rcases List.mem_cons.mp he with rfl | he2
    · exact hbest
    · exact hall e he2
  have hrmem : t.foldl (fun acc e => if optKeyLt e acc then e else acc) h0
      ∈ eligibleOf summary := by
    rw [hel]
    rcases hmem with hh | hh
    · rw [hh]
      exact List.mem_cons_self _ _
    · exact List.mem_cons_of_mem _ hh
  refine ⟨t.foldl (fun acc e => if optKeyLt e acc then e else acc) h0, ?_, hrmem,
    ?_, ?_, ?_⟩
  · simp only [select_result, select_eligible, hel, foldSelect]
  · have := List.mem_filter.mp hrmem
    simpa using this.2
  · intro e he hdef
    exact (of_optKeyLt_false e _ (hallc e he)).1 hdef
  · intro e he heq
    exact (of_optKeyLt_false e _ (hallc e he)).2 heq

/-- C4 (witness): two eligible rows tie on the metric 3; the larger speed 10
wins over 5, and the below-target row (7, 1/2, 1) is ignored. -/
theorem eligible_selection_rule_witness :
    ∃ b, select_result [(5, 19/20, 3), (10, 19/20, 3), (7, 1/2, 1)] = .optimal b
      ∧ b ∈ eligibleOf [(5, 19/20, 3), (10, 19/20, 3), (7, 1/2, 1)] :=
  match eligible_selection_rule [(5, 19/20, 3), (10, 19/20, 3), (7, 1/2, 1)]
      (by intro hcon
          norm_num [eligibleOf, PROB_CONSTRAINT_SATISFIED_THRESHOLD] at hcon
          simp at hcon) with
  | ⟨b, h1, h2, _⟩ => ⟨b, h1, h2⟩

/-- C5: `calculate_pet` applied with the two trajectories swapped returns the
very same PET value for every polygon — in particular the magnitude is
identical, and outside the overlap case (and inside it as well, since the
overlap value `latest_entry - earliest_exit` depends only on the `max` and
`min` of the bounds) the value itself is identical. -/
theorem calculate_pet_swap_eq (veh ped : List Pt) (poly : List (ℚ × ℚ)) :
    calculate_pet_value ped veh poly = calculate_pet_value veh ped poly := by
  unfold calculate_pet_value calculate_pet
  cases hv : normalizeTraj veh <;> cases hp : normalizeTraj ped <;> simp
  apply combine_pet_swap
  · intro x y h1 h2
    exact get_entry_exit_le _ poly x y (by rw [← h1, ← h2])
  · intro x y h1 h2
    exact get_entry_exit_le _ poly x y (by rw [← h1, ← h2])

/-- C6: a polygon with fewer than 3 vertices classifies every point as
outside under the manual ray-casting strategy and under the Shapely strategy
(whatever its `contains` does), entry/exit extraction over it always returns
`(absent, absent)`, and every completed `calculate_pet` over it is
`+infinity`. -/
theorem degenerate_polygon_cases (poly : List (ℚ × ℚ)) (hpoly : poly.length < 3) :
    (∀ point, is_inside_polygon point poly = false)
  ∧ (∀ contains point, is_inside_polygon_shapely contains point poly = false)
  ∧ (∀ traj, get_entry_exit_times traj poly = (none, none))
  ∧ (∀ veh ped r, calculate_pet veh ped poly = some r → r.1 = .inf) := by
  have hx : ∀ traj, get_entry_exit_times traj poly = (none, none) := by
    intro traj
    unfold get_entry_exit_times
    rw [if_pos (by simp [hpoly])]
  refine ⟨?_, ?_, hx, ?_⟩
  · intro point
    unfold is_inside_polygon
    by_cases h1 : poly.isEmpty
    · rw [if_pos h1]
    · rw [if_neg h1, if_pos hpoly]
  · intro contains point
    unfold is_inside_polygon_shapely
    by_cases h1 : poly.isEmpty
    · rw [if_pos h1]
    · rw [if_neg h1, if_pos hpoly]
  · intro veh ped r h
    unfold calculate_pet at h
    cases hv : normalizeTraj veh <;> rw [hv] at h
    · exact absurd h (by simp)
    cases hp : normalizeTraj ped <;> rw [hp] at h
    · exact absurd h (by simp)
    simp only [Option.some_inj] at h
    rw [← h]
    simp [hx, combine_pet]

/-- C6 (witness): the two-vertex polygon at concrete inputs, with a `contains`
strategy that would answer `true` on everything. -/
theorem degenerate_polygon_cases_witness :
    is_inside_polygon (5, 5) [(0, 0), (10, 10)] = false
  ∧ is_inside_polygon_shapely (fun _ _ => true) (5, 5) [(0, 0), (10, 10)] = false
  ∧ get_entry_exit_times pedTraj1 [(0, 0), (10, 10)] = (none, none)
  ∧ (∀ r, calculate_pet vehTraj1 pedTraj1 [(0, 0), (10, 10)] = some r → r.1 = .inf) := by
  have h := degenerate_polygon_cases [(0, 0), (10, 10)] (by norm_num)
  exact ⟨h.1 _, h.2.1 _ _, h.2.2.1 _, fun r => h.2.2.2 _ _ r⟩

/-- C7: the reference scenario — the square polygon, vehicle samples at times
0, 1, 2 and pedestrian samples at times 3, 4, 5 — yields the vehicle interval
(1/2, 3/2), the pedestrian interval (7/2, 9/2) (midpoints of the sample times
at each membership transition) and PET exactly 2. -/
theorem reference_scenario_one :
    get_entry_exit_times vehTraj1 squareArea = (some (1/2), some (3/2))
  ∧ get_entry_exit_times pedTraj1 squareArea = (some (7/2), some (9/2))
  ∧ calculate_pet_value vehTraj1 pedTraj1 squareArea = some (.val 2) := by
  refine ⟨?_, ?_, ?_⟩ <;>
    norm_num [calculate_pet_value, calculate_pet, normalizeTraj, setDefaultsPt,
      get_entry_exit_times, vehTraj1, pedTraj1, squareArea, mkPt, getCoordsTime, scanLoop,
      is_inside_polygon, edgeCross, postProcess, postTail, postTail2, finalCheck,
      combine_pet, List.range_succ]

/-- C8: when every run of a candidate yields `+infinity` for both monitored
PET values, every run passes the `pet >= threshold` check (`inf >= t` is
true) and the empirical probability of constraint satisfaction is exactly 1. -/
theorem all_inf_runs_prob_one (runs : List (PetVal × PetVal)) (hne : runs ≠ [])
    (hall : ∀ r ∈ runs, r.1 = PetVal.inf ∧ r.2 = PetVal.inf) :
    (∀ r ∈ runs, run_constraint_met r.1 r.2 = true)
  ∧ prob_constraint_satisfied runs = 1 := by
  have hmet : ∀ r ∈ runs, run_constraint_met r.1 r.2 = true := by
    intro r hr
    obtain ⟨h1, h2⟩ := hall r hr
    simp [run_constraint_met, h1, h2, petGe]
  refine ⟨hmet, ?_⟩
  unfold prob_constraint_satisfied
  rw [List.countP_eq_length.mpr (by intro r hr; simpa using hmet r hr)]
  have hlen : (runs.length : ℚ) ≠ 0 := by
    simp [List.length_eq_zero, hne]
  exact div_self hlen

/-- C8 (witness): one degraded run. -/
theorem all_inf_runs_prob_one_witness :
    (∀ r ∈ [(PetVal.inf, PetVal.inf)], run_constraint_met r.1 r.2 = true)
  ∧ prob_constraint_satisfied [(PetVal.inf, PetVal.inf)] = 1 :=
  all_inf_runs_prob_one [(PetVal.inf, PetVal.inf)] (by simp) (by simp)

/-- C9: on record-only inputs, `calculate_pet` completes and leaves both
caller trajectories in their `setdefault`-normalized state: each point keeps
its `time`, `x`, `y`, gets `speed` set to 0 and `id` set to "dummy" exactly
when missing, and a trajectory containing a point that misses either key is
not left unchanged. -/
theorem calculate_pet_mutates (veh ped : List Pt) (poly : List (ℚ × ℚ))
    (hv : allRecords veh = true) (hp : allRecords ped = true) :
    (∃ petv, calculate_pet veh ped poly
        = some (petv, veh.map setDefaultsPt, ped.map setDefaultsPt))
  ∧ (∀ r : PtRec, ∃ r' : PtRec, setDefaultsPt (.record r) = .record r'
      ∧ r'.time? = r.time? ∧ r'.x? = r.x? ∧ r'.y? = r.y?
      ∧ r'.speed? = some (r.speed?.getD 0) ∧ r'.id? = some (r.id?.getD "dummy")
      ∧ ((r.speed? = none ∨ r.id? = none) → r' ≠ r))
  ∧ ((∃ pt ∈ veh, missingSpeedOrId pt = true) → veh.map setDefaultsPt ≠ veh)
  ∧ ((∃ pt ∈ ped, missingSpeedOrId pt = true) → ped.map setDefaultsPt ≠ ped) := by
  refine ⟨?_, ?_, ?_, ?_⟩
  · exact ⟨_, by rw [calculate_pet, normalizeTraj_eq_map veh hv,
      normalizeTraj_eq_map ped hp]⟩
  · intro r
    refine ⟨_, rfl, rfl, rfl, rfl, rfl, rfl, ?_⟩
    intro hmiss hEq
    have h2 := setDefaults_ne_of_missing (.record r) ?_
    · exact h2 (by simp [setDefaultsPt, hEq])
    · rcases hmiss with h | h <;> simp [missingSpeedOrId, h]
  · rintro ⟨pt, hmem, hmiss⟩
    exact map_ne_self_of_mem pt hmem (setDefaults_ne_of_missing pt hmiss)
  · rintro ⟨pt, hmem, hmiss⟩
    exact map_ne_self_of_mem pt hmem (setDefaults_ne_of_missing pt hmiss)

/-- C9 (witness): a single point missing both `speed` and `id`. -/
theorem calculate_pet_mutates_witness :
    ∃ petv, calculate_pet [Pt.record ⟨some 0, some 0, some 0, none, none⟩] [] []
        = some (petv,
          [Pt.record ⟨some 0, some 0, some 0, none, none⟩].map setDefaultsPt,
          ([] : List Pt).map setDefaultsPt) :=
  (calculate_pet_mutates [Pt.record ⟨some 0, some 0, some 0, none, none⟩] [] []
    (by simp [allRecords, isRecordPt]) (by simp [allRecords])).1

/-- C10: `calculate_pet` raises an uncaught exception (modelled `none`) if and
only if some element of either trajectory is not a dict-like record — the
`setdefault` normalization loop raises before `_get_entry_exit_times` (whose
caught-`TypeError` handling of non-records is therefore unreachable from
`calculate_pet`) is ever consulted; conversely, on record-only inputs, fields
merely missing never raise and are absorbed into the `+infinity` sentinel. -/
theorem calculate_pet_raises_iff (veh ped : List Pt) (poly : List (ℚ × ℚ)) :
    calculate_pet veh ped poly = none ↔ (Pt.nonRec ∈ veh ∨ Pt.nonRec ∈ ped) := by
  unfold calculate_pet
  cases hv : normalizeTraj veh with
  | none => simp [(normalizeTraj_none_iff veh).mp hv]
  | some v =>
    have hv2 : ¬ Pt.nonRec ∈ veh := fun hm => by
      simp [(normalizeTraj_none_iff veh).mpr hm] at hv
    cases hp : normalizeTraj ped with
    | none => simp [(normalizeTraj_none_iff ped).mp hp, hv2]
    | some p =>
      have hp2 : ¬ Pt.nonRec ∈ ped := fun hm => by
        simp [(normalizeTraj_none_iff ped).mpr hm] at hp
      simp [hv2, hp2]

end SumoPet
